import Mathlib

/-!
Shallow embedding of the core logic of `sliver-graph.py`: the privilege
classifier (`is_privileged`), liveness classifier (`is_dead_or_late`),
topology builder (`build_agent_tree`), temporal tracker
(`track_agent_changes`, `is_agent_new`), and statistics aggregator
(`count_unique_hosts`, `calculate_stats`).

Python dictionaries are modelled as association lists with Python's
insertion-order-preserving update semantics (`dictInsert`), Python's
substring operator `in` as `strContains` (note: the empty string is a
substring of everything), and `str.endswith` as `strEndsWith`.
Timestamps are modelled as integers (seconds).
-/

namespace SliverGraph

open scoped List

/-- Python `needle in hay` on lists of characters: true iff `needle` occurs
contiguously in the remaining list (the empty needle always matches). -/
def subOf (needle : List Char) : List Char → Bool
  | [] => needle.isEmpty
  | c :: rest => needle.isPrefixOf (c :: rest) || subOf needle rest

/-- Python `needle in hay` for strings. -/
def strContains (hay needle : String) : Bool :=
  subOf needle.toList hay.toList

/-- Python `str.lower()` (ASCII), written over the character list so that
it reduces in the kernel. -/
def strLower (s : String) : String := ⟨s.data.map Char.toLower⟩

/-- Python `str.upper()` (ASCII), written over the character list so that
it reduces in the kernel. -/
def strUpper (s : String) : String := ⟨s.data.map Char.toUpper⟩

/-- Python `s.endswith(suf)`. -/
def strEndsWith (s suf : String) : Bool :=
  suf.toList.reverse.isPrefixOf s.toList.reverse

/-- One normalized agent record, the shape built by `build_agent_tree` for
both sessions and beacons (the dict stored in `all_agents`). -/
structure Agent where
  ID : String
  Hostname : String
  Username : String
  OS : String
  Transport : String
  ProxyURL : String
  RemoteAddress : String
  UID : String
  IsDead : Bool
  NextCheckin : Int
  type : String
deriving Repr, DecidableEq

/-- A root entry of the built tree: the agent dict together with its
`children` list (children never acquire grandchildren, because only
members of the evolving root list ever receive children). -/
structure Node where
  agent : Agent
  children : List Agent
deriving Repr, DecidableEq

/-- Python dict assignment `d[k] = v`: replaces the value at the first
occurrence of `k`, keeping its position, else appends at the end. -/
def dictInsert {α : Type} (k : String) (v : α) : List (String × α) → List (String × α)
  | [] => [(k, v)]
  | (k', v') :: rest => if k' = k then (k, v) :: rest else (k', v') :: dictInsert k v rest

/-- Python dict lookup `d[k]` (first binding wins; well-formed dicts have
no duplicate keys). -/
def dictLookup {α : Type} (k : String) : List (String × α) → Option α
  | [] => none
  | (k', v) :: rest => if k' = k then some v else dictLookup k rest

/-- Keys of a dict, in insertion order. -/
def dictKeys {α : Type} (d : List (String × α)) : List String :=
  d.map Prod.fst

/-- Python `k in d`. -/
def dictMem {α : Type} (k : String) (d : List (String × α)) : Bool :=
  (dictKeys d).contains k

/-- Python `d[k] = d.get(k, 0) + 1`, used for the protocol histogram. -/
def dictIncr (k : String) : List (String × Nat) → List (String × Nat)
  | [] => [(k, 1)]
  | (k', v) :: rest => if k' = k then (k, v + 1) :: rest else (k', v) :: dictIncr k rest

/-- `is_privileged(username, uid, os_name)` from the source: OS-branching
heuristic detection of elevated privileges. -/
def is_privileged (username uid os_name : String) : Bool :=
  let username_lower := if username = "" then "" else strLower username
  let os_lower := if os_name = "" then "" else strLower os_name
  let uid_str := if uid = "" then "" else uid
  if strContains os_lower "windows" then
    if ["administrator", "system", "nt authority\\system", "admin"].any
        (fun priv_name => strContains username_lower priv_name) then true
    else if strContains uid_str "S-1-5-18" then true
    else if strEndsWith uid_str "-500" then true
    else false
  else if strContains os_lower "linux" || strContains os_lower "unix"
      || strContains os_lower "darwin" then
    if username_lower = "root" then true
    else if uid_str = "0" then true
    else false
  else false

/-- `is_dead_or_late(is_dead, next_checkin, agent_type)` from the source:
returns "dead" iff the dead flag is set; checkin schedules are ignored. -/
def is_dead_or_late (is_dead : Bool) (next_checkin : Int) (agent_type : String) : String :=
  if is_dead then "dead" else "alive"

/-- Session records entering `all_agents`: `NextCheckin` forced to 0 and
`type` set to "session". -/
def sessionEntry (s : Agent) : Agent :=
  { s with NextCheckin := 0, type := "session" }

/-- Beacon records entering `all_agents`: `type` set to "beacon". -/
def beaconEntry (b : Agent) : Agent :=
  { b with type := "beacon" }

/-- The `all_agents` dict of `build_agent_tree`: sessions inserted first,
then beacons, keyed by `ID`. -/
def all_agents (sessions beacons : List Agent) : List (String × Agent) :=
  (beacons.map beaconEntry).foldl (fun d a => dictInsert a.ID a d)
    ((sessions.map sessionEntry).foldl (fun d a => dictInsert a.ID a d) [])

/-- The partition predicate of `build_agent_tree`: an agent is pivoted iff
its `ProxyURL` is non-empty or its lowercased transport contains "pivot",
"namedpipe" or "bind". -/
def is_pivoted (agent : Agent) : Bool :=
  let transport_lower := strLower agent.Transport
  agent.ProxyURL != "" || strContains transport_lower "pivot"
    || strContains transport_lower "namedpipe" || strContains transport_lower "bind"

/-- One scan over the current root list: attach `p` as a child of the
first root satisfying `q`, if any (models the `for root in root_agents`
loops with `break`). -/
def attach_first (q : Node → Bool) (p : Agent) : List Node → Option (List Node)
  | [] => none
  | r :: rest =>
    if q r then some ({ r with children := r.children ++ [p] } :: rest)
    else
      match attach_first q p rest with
      | some rest' => some (r :: rest')
      | none => none

/-- Step (a) of attachment: first root whose `ID` or `Hostname` is a
substring of the pivoted record's `ProxyURL`. -/
def attach_by_proxy (p : Agent) (roots : List Node) : Option (List Node) :=
  attach_first (fun root => strContains p.ProxyURL root.agent.ID
    || strContains p.ProxyURL root.agent.Hostname) p roots

/-- Step (b) of attachment: first root whose `Hostname` equals the pivoted
record's `Hostname` exactly. -/
def attach_by_hostname (p : Agent) (roots : List Node) : Option (List Node) :=
  attach_first (fun root => root.agent.Hostname == p.Hostname) p roots

/-- The body of the `for pivoted in pivoted_agents` loop: step (a) when
`ProxyURL` is truthy, then (whenever no parent was found yet) step (b)
when the transport contains "namedpipe" or "pivot", else append the
record to the root list as a fallback root. -/
def attach_one (roots : List Node) (p : Agent) : List Node :=
  match (if p.ProxyURL != "" then attach_by_proxy p roots else none) with
  | some roots' => roots'
  | none =>
    match (if strContains (strLower p.Transport) "namedpipe"
        || strContains (strLower p.Transport) "pivot"
        then attach_by_hostname p roots else none) with
    | some roots' => roots'
    | none => roots ++ [{ agent := p, children := [] }]

/-- `build_agent_tree(sessions, beacons)` from the source: builds the
`all_agents` dict, partitions its values into root candidates and pivoted
agents (in dict order), then attaches each pivoted agent in order,
mutating the growing root list. -/
def build_agent_tree (sessions beacons : List Agent) : List Node :=
  let records := (all_agents sessions beacons).map Prod.snd
  let root_agents := (records.filter (fun a => !(is_pivoted a))).map
    (fun a => { agent := a, children := [] : Node })
  let pivoted_agents := records.filter is_pivoted
  pivoted_agents.foldl attach_one root_agents

/-- All agents of a tree in display order: each root followed by its
children. -/
def flatten_nodes (tree : List Node) : List Agent :=
  tree.flatMap (fun n => n.agent :: n.children)

/-- `count_unique_hosts(agent_tree)`: the size of the set of lowercased,
non-empty hostnames over all roots and children. -/
def count_unique_hosts (tree : List Node) : Nat :=
  ((((flatten_nodes tree).map (fun a => strLower a.Hostname)).filter
    (fun hostname => hostname != "")).dedup).length

/-- The process-wide mutable tracking state: `PREVIOUS_AGENTS`,
`AGENT_FIRST_SEEN` and `LOST_AGENTS`. -/
structure TemporalState where
  previous_agents : List (String × Agent)
  agent_first_seen : List (String × Int)
  lost_agents : List (String × (Agent × Int))
deriving Repr, DecidableEq

/-- The initial (process start) tracking state: all three dicts empty. -/
def initialState : TemporalState :=
  { previous_agents := [], agent_first_seen := [], lost_agents := [] }

/-- The per-tick delta returned by `track_agent_changes`. -/
structure TrackResult where
  new_count : Nat
  lost_count : Nat
deriving Repr, DecidableEq

/-- The `current_agents` dict of `track_agent_changes`: every root and
child keyed by `ID`. -/
def flatten_agents (tree : List Node) : List (String × Agent) :=
  tree.foldl (fun d n =>
    n.children.foldl (fun d' c => dictInsert c.ID c d') (dictInsert n.agent.ID n.agent d)) []

/-- `track_agent_changes(agent_tree)` from the source, with the globals
passed explicitly and `time.time()` as `current_time`: detects new and
lost agents, records first-seen times, snapshots lost agents, expires
lost entries strictly older than 300 seconds, and replaces the previous
mapping with the current one. -/
def track_agent_changes (tree : List Node) (current_time : Int) (st : TemporalState) :
    TemporalState × TrackResult :=
  let current_agents := flatten_agents tree
  let current_ids := dictKeys current_agents
  let previous_ids := dictKeys st.previous_agents
  let new_ids := current_ids.filter (fun i => !(previous_ids.contains i))
  let first_seen := new_ids.foldl (fun fs i =>
    if dictMem i fs then fs else dictInsert i current_time fs) st.agent_first_seen
  let lost_ids := previous_ids.filter (fun i => !(current_ids.contains i))
  let lost := lost_ids.foldl (fun la i =>
    match dictLookup i st.previous_agents with
    | some a => dictInsert i (a, current_time) la
    | none => la) st.lost_agents
  let lost_kept := lost.filter (fun e => !(decide (current_time - e.2.2 > 300)))
  (⟨current_agents, first_seen, lost_kept⟩,
   ⟨new_ids.length, lost_ids.length⟩)

/-- `is_agent_new(agent_id)` from the source: true iff the agent has a
first-seen entry less than 300 seconds old. -/
def is_agent_new (agent_id : String) (st : TemporalState) (now : Int) : Bool :=
  match dictLookup agent_id st.agent_first_seen with
  | none => false
  | some t => decide (now - t < 300)

/-- The statistics record produced by `calculate_stats`. -/
structure Stats where
  total_agents : Nat
  privileged : Nat
  unprivileged : Nat
  windows : Nat
  linux : Nat
  other_os : Nat
  protocols : List (String × Nat)
  new_agents : Nat
  dead_agents : Nat
deriving Repr, DecidableEq

/-- The all-zero statistics `calculate_stats` starts from. -/
def emptyStats : Stats :=
  { total_agents := 0, privileged := 0, unprivileged := 0, windows := 0,
    linux := 0, other_os := 0, protocols := [], new_agents := 0, dead_agents := 0 }

/-- The inner `count_agent` of `calculate_stats`, for one agent. -/
def count_agent (st : TemporalState) (now : Int) (stats : Stats) (agent : Agent) : Stats :=
  let stats1 := { stats with total_agents := stats.total_agents + 1 }
  let stats2 :=
    if is_privileged agent.Username agent.UID agent.OS then
      { stats1 with privileged := stats1.privileged + 1 }
    else
      { stats1 with unprivileged := stats1.unprivileged + 1 }
  let os_lower := strLower agent.OS
  let stats3 :=
    if strContains os_lower "windows" then { stats2 with windows := stats2.windows + 1 }
    else if strContains os_lower "linux" then { stats2 with linux := stats2.linux + 1 }
    else { stats2 with other_os := stats2.other_os + 1 }
  let stats4 := { stats3 with protocols := dictIncr (strUpper agent.Transport) stats3.protocols }
  let stats5 :=
    if is_agent_new agent.ID st now then { stats4 with new_agents := stats4.new_agents + 1 }
    else stats4
  if is_dead_or_late agent.IsDead 0 agent.type == "dead" then
    { stats5 with dead_agents := stats5.dead_agents + 1 }
  else stats5

/-- `calculate_stats(agent_tree)` from the source: runs `count_agent` over
every root and then its children, in order. -/
def calculate_stats (tree : List Node) (st : TemporalState) (now : Int) : Stats :=
  (flatten_nodes tree).foldl (count_agent st now) emptyStats

/-- Sum of the protocol histogram counts. -/
def protocolSum (stats : Stats) : Nat :=
  (stats.protocols.map Prod.snd).sum

/-- A blank agent record used as the base of the concrete test records. -/
def base : Agent :=
  { ID := "", Hostname := "", Username := "", OS := "", Transport := "",
    ProxyURL := "", RemoteAddress := "", UID := "", IsDead := false,
    NextCheckin := 0, type := "" }

/-- Concrete session: direct mTLS agent on host WIN-01. -/
def s1 : Agent := { base with ID := "s1", Hostname := "WIN-01", Transport := "mtls" }

/-- Concrete beacon: tcppivot agent on the same host WIN-01. -/
def b1 : Agent := { base with ID := "b1", Hostname := "WIN-01", Transport := "tcppivot" }

/-- Pivoted beacon whose proxy URL matches no root: becomes a fallback root. -/
def p1 : Agent :=
  { base with ID := "p1", Hostname := "h1", Transport := "mtls", ProxyURL := "zzz" }

/-- Pivoted beacon whose proxy URL contains the identifier of `p1`. -/
def p2 : Agent :=
  { base with ID := "p2", Hostname := "h2", Transport := "mtls", ProxyURL := "p1" }

/-- Root session on host H. -/
def r1 : Agent := { base with ID := "r1", Hostname := "H", Transport := "mtls" }

/-- Pivoted beacon with a non-matching proxy URL, a pivot transport, and
the same hostname as `r1`. -/
def p3 : Agent :=
  { base with ID := "p9", Hostname := "H", Transport := "tcppivot", ProxyURL := "zzz" }

/-- Concrete agent used in the temporal-tracker scenarios. -/
def agentA : Agent := { base with ID := "a", Hostname := "h" }

/-- The tree containing only `agentA`. -/
def nodeA : Node := { agent := agentA, children := [] }

/-- Tracker state after tick 1 (agent present at time 0) and tick 2
(agent absent at time 10): `agentA` is recorded as lost at time 10. -/
def st2 : TemporalState :=
  (track_agent_changes [] 10 (track_agent_changes [nodeA] 0 initialState).1).1

/-- Tracker state holding one lost entry with loss timestamp 0 and an
empty previous-tick mapping. -/
def stL : TemporalState :=
  { previous_agents := [], agent_first_seen := [], lost_agents := [("x", (agentA, 0))] }

/-- A tree with a single root whose hostname is empty. -/
def emptyHostNode : Node := { agent := base, children := [] }

/-- Helper: the empty-string guard of the source is the identity composed
with lowering, since lowering the empty string yields the empty string. -/
theorem lower_guard (s : String) : (if s = "" then "" else strLower s) = strLower s := by
  by_cases h : s = ""
  · subst h; decide
  · simp [h]

/-- Helper: the truthiness guard on the uid string is the identity. -/
theorem id_guard (s : String) : (if s = "" then "" else s) = s := by
  by_cases h : s = "" <;> simp [h]

/-- Claim C1, counterexample: an agent present at tick 1 (time 0), absent
at tick 2 (time 10) and present again at tick 3 (time 20) is, after the
tick-3 update, simultaneously in `recentlyLost` and in `knownAgents`,
while contributing 1 to that tick's `newCount`: the loss entry is not
removed on reappearance. -/
theorem reappeared_agent_still_in_lost :
    ("a" ∈ dictKeys (track_agent_changes [nodeA] 20 st2).1.lost_agents) ∧
    ("a" ∈ dictKeys (track_agent_changes [nodeA] 20 st2).1.previous_agents) ∧
    (track_agent_changes [nodeA] 20 st2).2.new_count = 1 := by
  decide

/-- Claim C2, counterexample: the pivoted record `p1` (non-empty proxy
URL) is appended as a fallback root and is then used as the parent of the
subsequent pivoted record `p2`, so a record that is not an original root
candidate does serve as a parent in the same pass. -/
theorem fallback_root_becomes_parent :
    is_pivoted (beaconEntry p1) = true ∧
    is_pivoted (beaconEntry p2) = true ∧
    build_agent_tree [] [p1, p2] =
      [{ agent := beaconEntry p1, children := [beaconEntry p2] }] := by
  decide

/-- Claim C3, counterexample: the pivoted record `p3` has a non-empty
proxy URL in which neither the identifier nor the hostname of the sole
root candidate occurs, yet it is attached to that root by hostname
equality instead of being appended as its own root. -/
theorem proxy_mismatch_still_hostname_attached :
    (beaconEntry p3).ProxyURL ≠ "" ∧
    strContains (beaconEntry p3).ProxyURL (sessionEntry r1).ID = false ∧
    strContains (beaconEntry p3).ProxyURL (sessionEntry r1).Hostname = false ∧
    build_agent_tree [r1] [p3] =
      [{ agent := sessionEntry r1, children := [beaconEntry p3] }] := by
  decide

/-- Claim C4, counterexample: a lost entry with loss timestamp 0 is still
present after an update at time 300, although `now - lossTimestamp >= 300`
holds there: the code removes entries only strictly beyond 300 seconds. -/
theorem lost_entry_kept_at_exact_300 :
    (track_agent_changes [] 300 stL).1.lost_agents = [("x", (agentA, 0))] ∧
    (300 : Int) - 0 ≥ 300 := by
  decide

/-- Claim C7, counterexample: a forest with one agent whose hostname is
empty has unique host count 0 but total agent count 1, even though the
hostnames (a single one) are trivially pairwise distinct, so equality
fails without the non-emptiness condition. -/
theorem empty_hostname_breaks_equality :
    count_unique_hosts [emptyHostNode] = 0 ∧
    (flatten_nodes [emptyHostNode]).length = 1 ∧
    ((flatten_nodes [emptyHostNode]).map (fun a => strLower a.Hostname)).Nodup ∧
    count_unique_hosts [emptyHostNode] ≠ (flatten_nodes [emptyHostNode]).length := by
  refine ⟨by decide, by decide, by decide, by decide⟩

/-- Claim C6: `is_privileged` follows the OS-branching algorithm exactly:
on a "windows" OS it is true iff the lowercased username contains one of
"administrator", "system", "nt authority\\system", "admin", or the uid
contains "S-1-5-18" or ends with "-500"; on a "linux"/"unix"/"darwin" OS
(not matching "windows") iff the lowercased username equals "root" or the
uid equals "0"; and false for every other OS; with the three concrete
scenario instances. -/
theorem privileged_classifier_algorithm (username uid os_name : String) :
    (strContains (strLower os_name) "windows" = true →
      (is_privileged username uid os_name = true ↔
        (strContains (strLower username) "administrator" = true
          ∨ strContains (strLower username) "system" = true
          ∨ strContains (strLower username) "nt authority\\system" = true
          ∨ strContains (strLower username) "admin" = true
          ∨ strContains uid "S-1-5-18" = true
          ∨ strEndsWith uid "-500" = true)))
    ∧ (strContains (strLower os_name) "windows" = false →
        (strContains (strLower os_name) "linux" = true
          ∨ strContains (strLower os_name) "unix" = true
          ∨ strContains (strLower os_name) "darwin" = true) →
        (is_privileged username uid os_name = true ↔
          (strLower username = "root" ∨ uid = "0")))
    ∧ (strContains (strLower os_name) "windows" = false →
        strContains (strLower os_name) "linux" = false →
        strContains (strLower os_name) "unix" = false →
        strContains (strLower os_name) "darwin" = false →
        is_privileged username uid os_name = false)
    ∧ is_privileged "NT AUTHORITY\\SYSTEM" "S-1-5-18" "windows 10" = true
    ∧ is_privileged "bob" "1000" "linux" = false
    ∧ is_privileged "root" "0" "linux" = true := by
  refine ⟨?_, ?_, ?_, by decide, by decide, by decide⟩
  · intro hw
    simp only [is_privileged, lower_guard, id_guard, hw, if_true, List.any_cons,
      List.any_nil]
    cases ha : strContains (strLower username) "administrator" <;>
      cases hb : strContains (strLower username) "system" <;>
      cases hc : strContains (strLower username) "nt authority\\system" <;>
      cases hd : strContains (strLower username) "admin" <;>
      cases he : strContains uid "S-1-5-18" <;>
      cases hf : strEndsWith uid "-500" <;>
      simp [ha, hb, hc, hd, he, hf]
  · intro hw hlin
    simp only [is_privileged, lower_guard, id_guard]
    rcases hlin with h | h | h <;>
      by_cases hr : strLower username = "root" <;>
      by_cases hz : uid = "0" <;>
      simp [hw, h, hr, hz]
  · intro h1 h2 h3 h4
    simp [is_privileged, lower_guard, id_guard, h1, h2, h3, h4]

/-- Witness for `privileged_classifier_algorithm`: instantiated on a
Windows administrator, a non-root Linux user and plain root. -/
theorem privileged_classifier_algorithm_witness :
    strContains (strLower "Windows 10") "windows" = true ∧
    is_privileged "Administrator" "" "Windows 10" = true ∧
    strContains (strLower "linux") "windows" = false ∧
    is_privileged "bob" "1000" "linux" = false :=
  ⟨by decide,
   ((privileged_classifier_algorithm "Administrator" "" "Windows 10").1
     (by decide)).mpr (Or.inl (by decide)),
   by decide,
   by
     have h := (privileged_classifier_algorithm "bob" "1000" "linux").2.1
       (by decide) (Or.inl (by decide))
     cases hb : is_privileged "bob" "1000" "linux"
     · rfl
     · exact absurd (h.mp hb) (by decide)⟩

/-- Helper: incrementing one key of the protocol histogram raises the sum
of its counts by exactly one. -/
theorem protoSum_dictIncr (k : String) (m : List (String × Nat)) :
    ((dictIncr k m).map Prod.snd).sum = (m.map Prod.snd).sum + 1 := by
  induction m with
  | nil => simp [dictIncr]
  | cons hd tl ih =>
    obtain ⟨k', v⟩ := hd
    by_cases h : k' = k
    · simp only [dictIncr, if_pos h, List.map_cons, List.sum_cons]
      omega
    · simp only [dictIncr, if_neg h, List.map_cons, List.sum_cons, ih]
      omega

/-- Helper: one `count_agent` step increments the total, exactly one of
the privilege buckets, exactly one of the OS buckets, and the protocol
histogram sum. -/
theorem count_agent_step (st : TemporalState) (now : Int) (s : Stats) (a : Agent) :
    (count_agent st now s a).total_agents = s.total_agents + 1 ∧
    (count_agent st now s a).privileged + (count_agent st now s a).unprivileged
      = s.privileged + s.unprivileged + 1 ∧
    (count_agent st now s a).windows + (count_agent st now s a).linux
        + (count_agent st now s a).other_os
      = s.windows + s.linux + s.other_os + 1 ∧
    protocolSum (count_agent st now s a) = protocolSum s + 1 := by
  unfold count_agent
  split_ifs
  all_goals
    by_cases hw : strContains (strLower a.OS) "windows" = true <;>
      by_cases hl : strContains (strLower a.OS) "linux" = true <;>
      (simp [protocolSum, protoSum_dictIncr, hw, hl]; try omega)

/-- Helper: the fold of `count_agent` preserves the three partition
equations of the statistics. -/
theorem foldl_count_invariant (st : TemporalState) (now : Int) :
    ∀ (l : List Agent) (s : Stats),
      s.privileged + s.unprivileged = s.total_agents →
      s.windows + s.linux + s.other_os = s.total_agents →
      protocolSum s = s.total_agents →
      (l.foldl (count_agent st now) s).privileged
          + (l.foldl (count_agent st now) s).unprivileged
        = (l.foldl (count_agent st now) s).total_agents
      ∧ (l.foldl (count_agent st now) s).windows + (l.foldl (count_agent st now) s).linux
          + (l.foldl (count_agent st now) s).other_os
        = (l.foldl (count_agent st now) s).total_agents
      ∧ protocolSum (l.foldl (count_agent st now) s)
        = (l.foldl (count_agent st now) s).total_agents
  | [], s, h1, h2, h3 => ⟨h1, h2, h3⟩
  | a :: t, s, h1, h2, h3 => by
    obtain ⟨e1, e2, e3, e4⟩ := count_agent_step st now s a
    exact foldl_count_invariant st now t (count_agent st now s a)
      (by omega) (by omega) (by omega)

/-- Claim C10: for every forest and tracker state, the statistics satisfy
the partition equations: privileged + unprivileged = total_agents,
windows + linux + other_os = total_agents, and the sum of the protocol
histogram counts = total_agents. -/
theorem stats_partition_equations (tree : List Node) (st : TemporalState) (now : Int) :
    (calculate_stats tree st now).privileged + (calculate_stats tree st now).unprivileged
        = (calculate_stats tree st now).total_agents
    ∧ (calculate_stats tree st now).windows + (calculate_stats tree st now).linux
        + (calculate_stats tree st now).other_os
      = (calculate_stats tree st now).total_agents
    ∧ protocolSum (calculate_stats tree st now)
      = (calculate_stats tree st now).total_agents :=
  foldl_count_invariant st now (flatten_nodes tree) emptyStats (by decide) (by decide)
    (by decide)

/-- Helper: the length of the deduplicated, non-empty-filtered list is at
most the length of the list, with equality iff no element is empty and
the list has no duplicates. -/
theorem dedup_filter_nonempty (l : List String) :
    ((l.filter (fun h => h != "")).dedup).length ≤ l.length ∧
    (((l.filter (fun h => h != "")).dedup).length = l.length ↔
      ((∀ h ∈ l, h ≠ "") ∧ l.Nodup)) := by
  have hsub1 : (l.filter (fun h => h != "")).dedup <+ l.filter (fun h => h != "") :=
    List.dedup_sublist _
  have hsub2 : l.filter (fun h => h != "") <+ l := List.filter_sublist l
  have hle1 := hsub1.length_le
  have hle2 := hsub2.length_le
  refine ⟨le_trans hle1 hle2, ⟨?_, ?_⟩⟩
  · intro heq
    have hfe : l.filter (fun h => h != "") = l := hsub2.eq_of_length (by omega)
    have hde : (l.filter (fun h => h != "")).dedup = l.filter (fun h => h != "") :=
      hsub1.eq_of_length (by omega)
    rw [hfe] at hde
    refine ⟨?_, List.dedup_eq_self.mp hde⟩
    intro h hh
    have := List.filter_eq_self.mp hfe h hh
    simpa using this
  · rintro ⟨hne, hnd⟩
    have hfe : l.filter (fun h => h != "") = l := by
      apply List.filter_eq_self.mpr
      intro x hx
      simpa using hne x hx
    rw [hfe, List.dedup_eq_self.mpr hnd]

/-- Claim C7 (amended): for every forest, the unique compromised host
count is at most the total agent count, with equality iff every node's
lowercased hostname is non-empty and the lowercased hostnames are
pairwise distinct. (The original claim omitted the non-emptiness
condition; `count_unique_hosts` skips empty hostnames, refuted by
`empty_hostname_breaks_equality`.) -/
theorem unique_hosts_le_total (tree : List Node) :
    count_unique_hosts tree ≤ (flatten_nodes tree).length ∧
    (count_unique_hosts tree = (flatten_nodes tree).length ↔
      ((∀ a ∈ flatten_nodes tree, strLower a.Hostname ≠ "") ∧
        ((flatten_nodes tree).map (fun a => strLower a.Hostname)).Nodup)) := by
  have key := dedup_filter_nonempty ((flatten_nodes tree).map (fun a => strLower a.Hostname))
  have hcu : count_unique_hosts tree =
      ((((flatten_nodes tree).map (fun a => strLower a.Hostname)).filter
        (fun h => h != "")).dedup).length := rfl
  have hlen : ((flatten_nodes tree).map (fun a => strLower a.Hostname)).length
      = (flatten_nodes tree).length := by simp
  constructor
  · rw [hcu, ← hlen]
    exact key.1
  · rw [hcu, ← hlen, key.2]
    constructor
    · rintro ⟨hne, hnd⟩
      exact ⟨fun a ha => hne _ (List.mem_map_of_mem _ ha), hnd⟩
    · rintro ⟨hne, hnd⟩
      refine ⟨?_, hnd⟩
      intro h hh
      rcases List.mem_map.mp hh with ⟨a, ha, rfl⟩
      exact hne a ha

/-- Helper: a scan finds no parent iff no root satisfies the predicate. -/
theorem attach_first_eq_none (q : Node → Bool) (p : Agent) :
    ∀ (roots : List Node), (attach_first q p roots = none ↔ ∀ x ∈ roots, q x = false)
  | [] => by simp [attach_first]
  | r :: rest => by
    have ih := attach_first_eq_none q p rest
    by_cases hq : q r = true
    · simp [attach_first, hq]
    · rw [Bool.not_eq_true] at hq
      cases heq : attach_first q p rest with
      | none =>
        simp only [attach_first, hq, Bool.false_eq_true, if_false, heq]
        simp only [List.mem_cons, true_iff]
        intro x hx
        rcases hx with rfl | hx'
        · exact hq
        · exact ih.mp heq x hx'
      | some rest' =>
        simp only [attach_first, hq, Bool.false_eq_true, if_false, heq]
        constructor
        · intro h; exact absurd h (by simp)
        · intro hall
          have : attach_first q p rest = none :=
            ih.mpr (fun x hx => hall x (List.mem_cons_of_mem r hx))
          rw [this] at heq
          exact absurd heq (by simp)

/-- Helper: a successful scan attaches the new child to the first root
satisfying the predicate and leaves everything else unchanged. -/
theorem attach_first_eq_some (q : Node → Bool) (p : Agent) :
    ∀ (roots roots' : List Node), attach_first q p roots = some roots' →
      ∃ pre r post, roots = pre ++ r :: post ∧ (∀ x ∈ pre, q x = false) ∧ q r = true ∧
        roots' = pre ++ { r with children := r.children ++ [p] } :: post
  | [], roots', h => by simp [attach_first] at h
  | r :: rest, roots', h => by
    by_cases hq : q r = true
    · refine ⟨[], r, rest, rfl, by simp, hq, ?_⟩
      simp only [attach_first, hq, if_true, Option.some.injEq] at h
      simp [← h]
    · rw [Bool.not_eq_true] at hq
      cases heq : attach_first q p rest with
      | none =>
        rw [attach_first.eq_def] at h
        simp [hq, heq] at h
      | some rest' =>
        rw [attach_first.eq_def] at h
        simp only [hq, Bool.false_eq_true, if_false, heq, Option.some.injEq] at h
        rcases attach_first_eq_some q p rest rest' heq with ⟨pre, r0, post, h1, h2, h3, h4⟩
        refine ⟨r :: pre, r0, post, by rw [h1]; rfl, ?_, h3, ?_⟩
        · intro x hx
          rcases List.mem_cons.mp hx with rfl | hx'
          · exact hq
          · exact h2 x hx'
        · rw [← h, h4]
          rfl

/-- Helper: one attachment step either appends the pivoted record as a
fallback root at the end, or attaches it as a child of exactly one
existing root, leaving positions and agents unchanged. -/
theorem attach_one_cases (roots : List Node) (p : Agent) :
    attach_one roots p = roots ++ [{ agent := p, children := [] }] ∨
    ∃ pre r post, roots = pre ++ r :: post ∧
      attach_one roots p = pre ++ { r with children := r.children ++ [p] } :: post := by
  rw [attach_one.eq_def]
  cases h1 : (if p.ProxyURL != "" then attach_by_proxy p roots else none) with
  | some roots' =>
    right
    have hp : attach_by_proxy p roots = some roots' := by
      by_cases hp : p.ProxyURL != ""
      · rwa [if_pos hp] at h1
      · rw [if_neg hp] at h1; exact absurd h1 (by simp)
    rcases attach_first_eq_some _ _ roots roots' hp with ⟨pre, r, post, e1, _, _, e4⟩
    exact ⟨pre, r, post, e1, by rw [← e4]⟩
  | none =>
    cases h2 : (if strContains (strLower p.Transport) "namedpipe"
        || strContains (strLower p.Transport) "pivot"
        then attach_by_hostname p roots else none) with
    | some roots' =>
      right
      have hh : attach_by_hostname p roots = some roots' := by
        by_cases ht : strContains (strLower p.Transport) "namedpipe"
            || strContains (strLower p.Transport) "pivot"
        · rwa [if_pos ht] at h2
        · rw [if_neg ht] at h2; exact absurd h2 (by simp)
      rcases attach_first_eq_some _ _ roots roots' hh with ⟨pre, r, post, e1, _, _, e4⟩
      exact ⟨pre, r, post, e1, by rw [← e4]⟩
    | none =>
      left
      rfl

/-- Helper: the attachment fold preserves the agents of the initial root
list (in their positions) and appends only fallback roots, which form a
subsequence of the processed pivoted records. -/
theorem foldl_attach_agents :
    ∀ (l : List Agent) (init : List Node),
      ∃ fb, (l.foldl attach_one init).map Node.agent = init.map Node.agent ++ fb ∧ fb <+ l
  | [], init => ⟨[], by simp, List.nil_sublist []⟩
  | p :: t, init => by
    have hfold : (p :: t).foldl attach_one init = t.foldl attach_one (attach_one init p) := rfl
    rcases foldl_attach_agents t (attach_one init p) with ⟨fb, hmap, hsub⟩
    rcases attach_one_cases init p with h | ⟨pre, r, post, hinit, h⟩
    · refine ⟨p :: fb, ?_, hsub.cons₂ p⟩
      rw [hfold, hmap, h]
      simp
    · refine ⟨fb, ?_, hsub.cons p⟩
      rw [hfold, hmap, h, hinit]
      simp

/-- Helper: every node after the attachment fold stems from an initial
node or a processed pivoted record, with its extra children a subsequence
of the processed pivoted records, appended in processing order. -/
theorem foldl_attach_children :
    ∀ (l : List Agent) (init : List Node) (n : Node), n ∈ l.foldl attach_one init →
      ∃ n0 cs, n.agent = n0.agent ∧ n.children = n0.children ++ cs ∧ cs <+ l ∧
        (n0 ∈ init ∨ (n0.agent ∈ l ∧ n0.children = []))
  | [], _, n, hn => ⟨n, [], rfl, by simp, List.nil_sublist _, Or.inl hn⟩
  | p :: t, init, n, hn => by
    have hfold : (p :: t).foldl attach_one init = t.foldl attach_one (attach_one init p) := rfl
    rw [hfold] at hn
    rcases foldl_attach_children t (attach_one init p) n hn with ⟨n0, cs, ha, hc, hsub, hmem⟩
    rcases hmem with hin | ⟨hagent, hnil⟩
    · rcases attach_one_cases init p with h | ⟨pre, r, post, hinit, h⟩
      · rw [h] at hin
        rcases List.mem_append.mp hin with hin' | hin'
        · exact ⟨n0, cs, ha, hc, hsub.cons p, Or.inl hin'⟩
        · have hn0 : n0 = { agent := p, children := [] } := by simpa using hin'
          refine ⟨n0, cs, ha, hc, hsub.cons p, Or.inr ⟨?_, ?_⟩⟩
          · rw [hn0]; exact List.mem_cons_self p t
          · rw [hn0]
      · rw [h] at hin
        rcases List.mem_append.mp hin with hin' | hin'
        · exact ⟨n0, cs, ha, hc, hsub.cons p,
            Or.inl (by rw [hinit]; exact List.mem_append_left _ hin')⟩
        · rcases List.mem_cons.mp hin' with rfl | hin''
          · refine ⟨r, p :: cs, ha, ?_, hsub.cons₂ p,
              Or.inl (by rw [hinit]; exact List.mem_append_right _ (List.mem_cons_self r post))⟩
            rw [hc]
            simp
          · exact ⟨n0, cs, ha, hc, hsub.cons p,
              Or.inl (by
                rw [hinit]
                exact List.mem_append_right _ (List.mem_cons_of_mem r hin''))⟩
    · exact ⟨n0, cs, ha, hc, hsub.cons p, Or.inr ⟨List.mem_cons_of_mem p hagent, hnil⟩⟩

/-- Helper: one attachment step adds exactly the processed record, up to
permutation, to the flattened forest. -/
theorem flatten_attach_one (init : List Node) (p : Agent) :
    flatten_nodes (attach_one init p) ~ flatten_nodes init ++ [p] := by
  rcases attach_one_cases init p with h | ⟨pre, r, post, hinit, h⟩
  · rw [h]
    simp [flatten_nodes]
  · rw [h, hinit]
    simp only [flatten_nodes, List.flatMap_append, List.flatMap_cons, List.append_assoc,
      List.cons_append]
    refine List.Perm.append_left _ ?_
    refine List.Perm.cons _ ?_
    refine List.Perm.append_left _ ?_
    show [p] ++ _ ~ _
    exact List.perm_append_comm

/-- Helper: the attachment fold appends, up to permutation, exactly the
processed pivoted records to the flattened forest. -/
theorem foldl_attach_flatten :
    ∀ (l : List Agent) (init : List Node),
      flatten_nodes (l.foldl attach_one init) ~ flatten_nodes init ++ l
  | [], init => by simp
  | p :: t, init => by
    have hfold : (p :: t).foldl attach_one init = t.foldl attach_one (attach_one init p) := rfl
    rw [hfold]
    calc flatten_nodes (t.foldl attach_one (attach_one init p))
        ~ flatten_nodes (attach_one init p) ++ t := foldl_attach_flatten t (attach_one init p)
      _ ~ (flatten_nodes init ++ [p]) ++ t := (flatten_attach_one init p).append_right t
      _ = flatten_nodes init ++ (p :: t) := by simp

/-- Helper: inserting a fresh key into a dict appends the binding. -/
theorem dictInsert_not_mem {α : Type} (k : String) (v : α) :
    ∀ (d : List (String × α)), k ∉ dictKeys d → dictInsert k v d = d ++ [(k, v)]
  | [], _ => rfl
  | (k', v') :: rest, h => by
    have hne : ¬(k' = k) := by
      intro he
      exact h (by simp [dictKeys, he])
    have hrest : k ∉ dictKeys rest := by
      intro hm
      refine h ?_
      simp only [dictKeys, List.map_cons, List.mem_cons]
      exact Or.inr hm
    simp only [dictInsert, if_neg hne]
    rw [dictInsert_not_mem k v rest hrest]
    rfl

/-- Helper: folding dict insertion over records with globally fresh
identifiers appends the corresponding bindings in order. -/
theorem foldl_insert_nodup :
    ∀ (l : List Agent) (d : List (String × Agent)),
      (dictKeys d ++ l.map Agent.ID).Nodup →
      l.foldl (fun d' a => dictInsert a.ID a d') d = d ++ l.map (fun a => (a.ID, a))
  | [], d, _ => by simp
  | a :: t, d, h => by
    have hdisj := List.disjoint_of_nodup_append h
    have hnotin : a.ID ∉ dictKeys d := fun hm => hdisj hm (List.mem_cons_self _ _)
    have heq := dictInsert_not_mem a.ID a d hnotin
    have hn2 : (dictKeys (d ++ [(a.ID, a)]) ++ t.map Agent.ID).Nodup := by
      have hkeys : dictKeys (d ++ [(a.ID, a)]) = dictKeys d ++ [a.ID] := by
        simp [dictKeys]
      rw [hkeys, List.append_assoc, List.singleton_append]
      simpa using h
    have hfold : (a :: t).foldl (fun d' x => dictInsert x.ID x d') d
        = t.foldl (fun d' x => dictInsert x.ID x d') (dictInsert a.ID a d) := rfl
    rw [hfold, heq, foldl_insert_nodup t (d ++ [(a.ID, a)]) hn2]
    simp

/-- Helper: with pairwise-distinct identifiers the `all_agents` dict is
exactly the normalized sessions followed by the normalized beacons. -/
theorem all_agents_eq (sessions beacons : List Agent)
    (h : ((sessions ++ beacons).map Agent.ID).Nodup) :
    all_agents sessions beacons
      = (sessions.map sessionEntry ++ beacons.map beaconEntry).map (fun a => (a.ID, a)) := by
  have hids : (sessions.map sessionEntry ++ beacons.map beaconEntry).map Agent.ID
      = (sessions ++ beacons).map Agent.ID := by
    simp only [List.map_append, List.map_map]
    rfl
  have key := foldl_insert_nodup (sessions.map sessionEntry ++ beacons.map beaconEntry) []
    (by
      simp only [dictKeys, List.map_nil, List.nil_append]
      rw [hids]
      exact h)
  calc all_agents sessions beacons
      = (sessions.map sessionEntry ++ beacons.map beaconEntry).foldl
          (fun d a => dictInsert a.ID a d) [] := by
        rw [List.foldl_append]
        rfl
    _ = [] ++ (sessions.map sessionEntry ++ beacons.map beaconEntry).map (fun a => (a.ID, a)) :=
        key
    _ = (sessions.map sessionEntry ++ beacons.map beaconEntry).map (fun a => (a.ID, a)) := by
        simp

/-- Helper: with pairwise-distinct identifiers the record list fed to the
partition step is the normalized sessions followed by the normalized
beacons. -/
theorem build_records (sessions beacons : List Agent)
    (h : ((sessions ++ beacons).map Agent.ID).Nodup) :
    (all_agents sessions beacons).map Prod.snd
      = sessions.map sessionEntry ++ beacons.map beaconEntry := by
  rw [all_agents_eq sessions beacons h]
  have hmap : ∀ (l : List Agent), (l.map (fun a => (a.ID, a))).map Prod.snd = l := by
    intro l
    induction l with
    | nil => rfl
    | cons x t ih => simp [ih]
  exact hmap _

/-- Helper: normalization preserves identifiers. -/
theorem entry_ids (sessions beacons : List Agent) :
    (sessions.map sessionEntry ++ beacons.map beaconEntry).map Agent.ID
      = (sessions ++ beacons).map Agent.ID := by
  simp only [List.map_append, List.map_map]
  rfl

/-- Helper: wrapping records as childless nodes and projecting the agents
back is the identity. -/
theorem map_agent_mk (l : List Agent) :
    (l.map (fun a => { agent := a, children := [] : Node })).map Node.agent = l := by
  induction l with
  | nil => rfl
  | cons x t ih => simp only [List.map_cons, ih]

/-- Helper: flattening childless nodes recovers the record list. -/
theorem flatten_map_mk (l : List Agent) :
    flatten_nodes (l.map (fun a => { agent := a, children := [] : Node })) = l := by
  induction l with
  | nil => rfl
  | cons x t ih =>
    simp only [List.map_cons, flatten_nodes, List.flatMap_cons] at ih ⊢
    rw [ih]
    rfl

/-- Helper: `build_agent_tree` is the attachment fold over the partition
of the normalized records (assuming pairwise-distinct identifiers). -/
theorem build_eq_fold (sessions beacons : List Agent)
    (h : ((sessions ++ beacons).map Agent.ID).Nodup) :
    build_agent_tree sessions beacons
      = (((sessions.map sessionEntry ++ beacons.map beaconEntry).filter is_pivoted).foldl
          attach_one
          (((sessions.map sessionEntry ++ beacons.map beaconEntry).filter
            (fun a => !(is_pivoted a))).map (fun a => { agent := a, children := [] : Node }))) := by
  have h1 : build_agent_tree sessions beacons
      = (((all_agents sessions beacons).map Prod.snd).filter is_pivoted).foldl attach_one
          ((((all_agents sessions beacons).map Prod.snd).filter (fun a => !(is_pivoted a))).map
            (fun a => { agent := a, children := [] : Node })) := rfl
  rw [h1, build_records sessions beacons h]

/-- Helper: the forest's agents are the root candidates followed by a
subsequence of the pivoted records. -/
theorem build_agents_decomp (sessions beacons : List Agent)
    (h : ((sessions ++ beacons).map Agent.ID).Nodup) :
    ∃ fb, (build_agent_tree sessions beacons).map Node.agent
        = ((sessions.map sessionEntry ++ beacons.map beaconEntry).filter
            (fun a => !(is_pivoted a))) ++ fb
      ∧ fb <+ (sessions.map sessionEntry ++ beacons.map beaconEntry).filter is_pivoted := by
  rcases foldl_attach_agents
      ((sessions.map sessionEntry ++ beacons.map beaconEntry).filter is_pivoted)
      (((sessions.map sessionEntry ++ beacons.map beaconEntry).filter
        (fun a => !(is_pivoted a))).map (fun a => { agent := a, children := [] : Node })) with
    ⟨fb, hmap, hsub⟩
  refine ⟨fb, ?_, hsub⟩
  rw [build_eq_fold sessions beacons h, hmap, map_agent_mk]

/-- Helper: every node's children form a subsequence of the pivoted
records (in input order). -/
theorem build_children_sub (sessions beacons : List Agent)
    (h : ((sessions ++ beacons).map Agent.ID).Nodup) :
    ∀ n ∈ build_agent_tree sessions beacons,
      n.children <+ (sessions.map sessionEntry ++ beacons.map beaconEntry).filter is_pivoted := by
  intro n hn
  rw [build_eq_fold sessions beacons h] at hn
  rcases foldl_attach_children _ _ n hn with ⟨n0, cs, _, hc, hsub, hmem⟩
  have hnil : n0.children = [] := by
    rcases hmem with hin | ⟨_, hnil⟩
    · rcases List.mem_map.mp hin with ⟨a, _, rfl⟩
      rfl
    · exact hnil
  rw [hc, hnil]
  simpa using hsub

/-- Helper: the flattened forest is a permutation of the normalized
records when identifiers are pairwise distinct. -/
theorem build_flatten_perm (sessions beacons : List Agent)
    (h : ((sessions ++ beacons).map Agent.ID).Nodup) :
    flatten_nodes (build_agent_tree sessions beacons)
      ~ sessions.map sessionEntry ++ beacons.map beaconEntry := by
  rw [build_eq_fold sessions beacons h]
  have step1 := foldl_attach_flatten
    ((sessions.map sessionEntry ++ beacons.map beaconEntry).filter is_pivoted)
    (((sessions.map sessionEntry ++ beacons.map beaconEntry).filter
      (fun a => !(is_pivoted a))).map (fun a => { agent := a, children := [] : Node }))
  rw [flatten_map_mk] at step1
  refine step1.trans ?_
  have hfc : ((sessions.map sessionEntry ++ beacons.map beaconEntry).filter
      (fun x => !(!(is_pivoted x))))
      = (sessions.map sessionEntry ++ beacons.map beaconEntry).filter is_pivoted := by
    apply List.filter_congr
    intro x _
    simp
  have hperm := List.filter_append_perm (fun a => !(is_pivoted a))
    (sessions.map sessionEntry ++ beacons.map beaconEntry)
  rw [hfc] at hperm
  exact hperm

/-- Helper: the flattened forest has pairwise-distinct identifiers when
the input does. -/
theorem build_flatten_ids_nodup (sessions beacons : List Agent)
    (h : ((sessions ++ beacons).map Agent.ID).Nodup) :
    ((flatten_nodes (build_agent_tree sessions beacons)).map Agent.ID).Nodup := by
  have hid : ((sessions.map sessionEntry ++ beacons.map beaconEntry).map Agent.ID).Nodup := by
    rw [entry_ids]
    exact h
  exact (((build_flatten_perm sessions beacons h).map Agent.ID).nodup_iff).mpr hid

/-- Claim C8: with pairwise-distinct identifiers, the forest's roots are
the root candidates in partition order — session-derived roots before
beacon-derived roots, each in input order — followed by the fallback
roots, which are pivoted records in processing (input) order; and each
root's children are a subsequence of the pivoted records in input
order. -/
theorem forest_root_ordering (sessions beacons : List Agent)
    (h : ((sessions ++ beacons).map Agent.ID).Nodup) :
    (∃ fb, (build_agent_tree sessions beacons).map Node.agent
        = ((sessions.map sessionEntry).filter (fun a => !(is_pivoted a))
            ++ (beacons.map beaconEntry).filter (fun a => !(is_pivoted a))) ++ fb
      ∧ fb <+ (sessions.map sessionEntry ++ beacons.map beaconEntry).filter is_pivoted
      ∧ ∀ a ∈ fb, is_pivoted a = true)
    ∧ ∀ n ∈ build_agent_tree sessions beacons,
        n.children <+ (sessions.map sessionEntry ++ beacons.map beaconEntry).filter
          is_pivoted := by
  refine ⟨?_, build_children_sub sessions beacons h⟩
  rcases build_agents_decomp sessions beacons h with ⟨fb, hmap, hsub⟩
  refine ⟨fb, ?_, hsub, fun a ha => List.of_mem_filter (hsub.subset ha)⟩
  rw [hmap, List.filter_append]

/-- Witness for `forest_root_ordering` at the concrete session `s1` and
beacon `b1`. -/
theorem forest_root_ordering_witness :
    ((([s1] ++ [b1]).map Agent.ID).Nodup) ∧
    ∀ n ∈ build_agent_tree [s1] [b1],
      n.children <+ ([s1].map sessionEntry ++ [b1].map beaconEntry).filter is_pivoted :=
  ⟨by decide, (forest_root_ordering [s1] [b1] (by decide)).2⟩

/-- Claim C9: with pairwise-distinct identifiers, flattening the forest
yields exactly the normalized input records, each exactly once (the
flattening is a permutation of the input and its identifiers stay
pairwise distinct, so no record is dropped, duplicated, self-attached,
or present both as a root and as a child). -/
theorem forest_flatten_exactly_once (sessions beacons : List Agent)
    (h : ((sessions ++ beacons).map Agent.ID).Nodup) :
    flatten_nodes (build_agent_tree sessions beacons)
        ~ sessions.map sessionEntry ++ beacons.map beaconEntry
    ∧ ((flatten_nodes (build_agent_tree sessions beacons)).map Agent.ID).Nodup :=
  ⟨build_flatten_perm sessions beacons h, build_flatten_ids_nodup sessions beacons h⟩

/-- Witness for `forest_flatten_exactly_once` at the concrete session
`s1` and beacon `b1`. -/
theorem forest_flatten_exactly_once_witness :
    ((([s1] ++ [b1]).map Agent.ID).Nodup) ∧
    flatten_nodes (build_agent_tree [s1] [b1])
      ~ [s1].map sessionEntry ++ [b1].map beaconEntry :=
  ⟨by decide, (forest_flatten_exactly_once [s1] [b1] (by decide)).1⟩

/-- Claim C5: a record is classified pivoted iff its proxy URL is
non-empty or its lowercased transport contains "pivot", "namedpipe" or
"bind"; consequently a record with empty proxy URL whose transport
contains none of these is always among the roots of the forest. -/
theorem nonpivoted_always_root (sessions beacons : List Agent) (r : Agent)
    (h : ((sessions ++ beacons).map Agent.ID).Nodup)
    (hr : r ∈ sessions.map sessionEntry ++ beacons.map beaconEntry)
    (hproxy : r.ProxyURL = "")
    (hpiv : strContains (strLower r.Transport) "pivot" = false)
    (hnp : strContains (strLower r.Transport) "namedpipe" = false)
    (hbind : strContains (strLower r.Transport) "bind" = false) :
    (∀ a : Agent, is_pivoted a = true ↔
      (a.ProxyURL ≠ "" ∨ strContains (strLower a.Transport) "pivot" = true
        ∨ strContains (strLower a.Transport) "namedpipe" = true
        ∨ strContains (strLower a.Transport) "bind" = true))
    ∧ ∃ n ∈ build_agent_tree sessions beacons, n.agent = r := by
  constructor
  · intro a
    simp [is_pivoted, Bool.or_eq_true, bne_iff_ne]
    tauto
  · have hnotpiv : is_pivoted r = false := by
      simp [is_pivoted, hproxy, hpiv, hnp, hbind]
    rcases build_agents_decomp sessions beacons h with ⟨fb, hmap, _⟩
    have hrmem : r ∈ ((sessions.map sessionEntry ++ beacons.map beaconEntry).filter
        (fun a => !(is_pivoted a))) :=
      List.mem_filter.mpr ⟨hr, by simp [hnotpiv]⟩
    have hin : r ∈ (build_agent_tree sessions beacons).map Node.agent := by
      rw [hmap]
      exact List.mem_append_left _ hrmem
    rcases List.mem_map.mp hin with ⟨n, hn, hna⟩
    exact ⟨n, hn, hna⟩

/-- Witness for `nonpivoted_always_root`: the mTLS session `s1` is a root
of the forest built from `s1` and `b1`. -/
theorem nonpivoted_always_root_witness :
    (sessionEntry s1).ProxyURL = "" ∧
    ∃ n ∈ build_agent_tree [s1] [b1], n.agent = sessionEntry s1 :=
  ⟨by decide,
   (nonpivoted_always_root [s1] [b1] (sessionEntry s1) (by decide) (by decide) (by decide)
     (by decide) (by decide) (by decide)).2⟩

/-- Claim C2 (amended): records attached as children are never parents —
every child is a pivoted record and equals no node's agent — but a
pivoted record appended as a fallback root does remain an eligible parent
for subsequent pivoted records (shown by `fallback_root_becomes_parent`),
so only the evolving root list, not the original root-candidate set,
bounds the eligible parents. -/
theorem child_records_never_parents (sessions beacons : List Agent)
    (h : ((sessions ++ beacons).map Agent.ID).Nodup) :
    ∀ n ∈ build_agent_tree sessions beacons, ∀ c ∈ n.children,
      is_pivoted c = true ∧
      ∀ n' ∈ build_agent_tree sessions beacons, n'.agent ≠ c := by
  intro n hn c hc
  constructor
  · exact List.of_mem_filter ((build_children_sub sessions beacons h n hn).subset hc)
  · have hnd := build_flatten_ids_nodup sessions beacons h
    have hfl : flatten_nodes (build_agent_tree sessions beacons)
        = (build_agent_tree sessions beacons).flatMap (fun m => m.agent :: m.children) := rfl
    rw [hfl, List.map_flatMap] at hnd
    obtain ⟨heach, hpair⟩ := List.nodup_flatMap.mp hnd
    intro n' hn' hEq
    by_cases hnn : n = n'
    · subst hnn
      have hblock := heach n hn
      simp only [List.map_cons, List.nodup_cons] at hblock
      refine hblock.1 ?_
      rw [show n.agent.ID = c.ID from congrArg Agent.ID hEq]
      exact List.mem_map_of_mem Agent.ID hc
    · have hsymm : Symmetric (Function.onFun List.Disjoint
          (fun m : Node => (m.agent :: m.children).map Agent.ID)) :=
        fun a b hab => List.Disjoint.symm hab
      have hd := List.Pairwise.forall hsymm hpair hn hn' hnn
      refine hd (List.mem_cons_of_mem _ (List.mem_map_of_mem Agent.ID hc)) ?_
      rw [show c.ID = n'.agent.ID from (congrArg Agent.ID hEq).symm]
      exact List.mem_cons_self _ _

/-- Witness for `child_records_never_parents`: the beacon `b1`, attached
as a child of `s1`, is pivoted and equals no root's agent. -/
theorem child_records_never_parents_witness :
    ((([s1] ++ [b1]).map Agent.ID).Nodup) ∧
    is_pivoted (beaconEntry b1) = true ∧
    ∀ n' ∈ build_agent_tree [s1] [b1], n'.agent ≠ beaconEntry b1 := by
  have key := child_records_never_parents [s1] [b1] (by decide)
    { agent := sessionEntry s1, children := [beaconEntry b1] } (by decide)
    (beaconEntry b1) (by decide)
  exact ⟨by decide, key.1, key.2⟩

/-- Claim C3 (amended): hostname-equality attachment (step b) is
attempted whenever step (a) found no parent — including when the proxy
URL is non-empty but matched no root — so a pivoted record with a
non-matching non-empty proxy URL whose transport contains "namedpipe" or
"pivot" is attached to the first root with an exactly equal hostname,
not appended as its own root. -/
theorem hostname_attach_after_proxy_failure (roots : List Node) (p : Agent)
    (hproxy : p.ProxyURL ≠ "")
    (hnone : ∀ root ∈ roots, strContains p.ProxyURL root.agent.ID = false ∧
      strContains p.ProxyURL root.agent.Hostname = false)
    (htrans : strContains (strLower p.Transport) "namedpipe" = true
      ∨ strContains (strLower p.Transport) "pivot" = true)
    (hhost : ∃ root ∈ roots, root.agent.Hostname = p.Hostname) :
    ∃ pre r post, roots = pre ++ r :: post ∧
      (∀ x ∈ pre, x.agent.Hostname ≠ p.Hostname) ∧
      r.agent.Hostname = p.Hostname ∧
      attach_one roots p = pre ++ { r with children := r.children ++ [p] } :: post := by
  have hpa : attach_by_proxy p roots = none := by
    apply (attach_first_eq_none _ _ roots).mpr
    intro x hx
    rcases hnone x hx with ⟨h1, h2⟩
    simp [h1, h2]
  have hbne : (p.ProxyURL != "") = true := by simpa using hproxy
  have hhb : attach_by_hostname p roots ≠ none := by
    intro hno
    rcases hhost with ⟨r0, hr0, hh⟩
    have hf := (attach_first_eq_none _ _ roots).mp hno r0 hr0
    rw [hh] at hf
    simp at hf
  cases hsome : attach_by_hostname p roots with
  | none => exact absurd hsome hhb
  | some roots' =>
    rcases attach_first_eq_some _ _ roots roots' hsome with ⟨pre, r, post, e1, e2, e3, e4⟩
    refine ⟨pre, r, post, e1, ?_, by simpa using e3, ?_⟩
    · intro x hx
      have := e2 x hx
      simpa using this
    · have htb : (strContains (strLower p.Transport) "namedpipe"
          || strContains (strLower p.Transport) "pivot") = true := by
        rcases htrans with ht | ht <;> simp [ht]
      rw [attach_one.eq_def]
      simp only [hbne, if_true, hpa, htb, hsome]
      rw [e4]

/-- Witness for `hostname_attach_after_proxy_failure`: `p3`'s proxy URL
"zzz" matches nothing, yet it is attached under `r1` by hostname. -/
theorem hostname_attach_after_proxy_failure_witness :
    (beaconEntry p3).ProxyURL ≠ "" ∧
    ∃ pre r post,
      [{ agent := sessionEntry r1, children := [] : Node }] = pre ++ r :: post ∧
      (∀ x ∈ pre, x.agent.Hostname ≠ (beaconEntry p3).Hostname) ∧
      r.agent.Hostname = (beaconEntry p3).Hostname ∧
      attach_one [{ agent := sessionEntry r1, children := [] }] (beaconEntry p3)
        = pre ++ { r with children := r.children ++ [beaconEntry p3] } :: post :=
  ⟨by decide,
   hostname_attach_after_proxy_failure [{ agent := sessionEntry r1, children := [] }]
     (beaconEntry p3) (by decide) (by decide) (Or.inr (by decide))
     ⟨{ agent := sessionEntry r1, children := [] }, by decide, by decide⟩⟩

/-- Helper: inserting under a different key does not change a lookup. -/
theorem dictLookup_insert_ne {α : Type} (k id : String) (v : α) :
    ∀ (d : List (String × α)), k ≠ id →
      dictLookup id (dictInsert k v d) = dictLookup id d
  | [], h => by simp [dictInsert, dictLookup, h]
  | (k', v') :: rest, h => by
    by_cases he : k' = k
    · subst he
      simp only [dictInsert, if_pos rfl]
      simp [dictLookup, h]
    · simp only [dictInsert, if_neg he]
      by_cases hki : k' = id
      · simp [dictLookup, hki]
      · simp [dictLookup, hki, dictLookup_insert_ne k id v rest h]

/-- Helper: a fold of per-key updates over keys other than `id` does not
change the lookup of `id`. -/
theorem lookup_foldl_untouched {α : Type} (id : String)
    (g : String → List (String × α) → List (String × α))
    (hg : ∀ i d, i ≠ id → dictLookup id (g i d) = dictLookup id d) :
    ∀ (l : List String) (d : List (String × α)), id ∉ l →
      dictLookup id (l.foldl (fun d' i => g i d') d) = dictLookup id d
  | [], _, _ => rfl
  | i :: tl, d, h => by
    have hne : i ≠ id := fun he => h (he ▸ List.mem_cons_self i tl)
    have hnt : id ∉ tl := fun hm => h (List.mem_cons_of_mem i hm)
    rw [List.foldl_cons, lookup_foldl_untouched id g hg tl (g i d) hnt, hg i d hne]

/-- Helper: a successful lookup in a value-filtered dict returns a value
satisfying the filter predicate. -/
theorem lookup_filter_prop {α : Type} (p : α → Bool) (id : String) :
    ∀ (d : List (String × α)) (v : α),
      dictLookup id (d.filter (fun e => p e.2)) = some v → p v = true
  | [], v, h => by simp [dictLookup] at h
  | (k, w) :: rest, v, h => by
    by_cases hp : p w = true
    · rw [List.filter_cons_of_pos (by simpa using hp)] at h
      by_cases hk : k = id
      · simp only [dictLookup, if_pos hk, Option.some.injEq] at h
        rw [← h]
        exact hp
      · simp only [dictLookup, if_neg hk] at h
        exact lookup_filter_prop p id rest v h
    · rw [List.filter_cons_of_neg (by simpa using hp)] at h
      exact lookup_filter_prop p id rest v h

/-- Helper: a binding whose value satisfies the filter predicate survives
value-filtering with its lookup unchanged. -/
theorem lookup_filter_mem {α : Type} (p : α → Bool) (id : String) :
    ∀ (d : List (String × α)) (v : α),
      dictLookup id d = some v → p v = true →
      dictLookup id (d.filter (fun e => p e.2)) = some v
  | [], v, h, _ => by simp [dictLookup] at h
  | (k, w) :: rest, v, h, hp => by
    by_cases hk : k = id
    · simp only [dictLookup, if_pos hk, Option.some.injEq] at h
      subst h
      rw [List.filter_cons_of_pos (by simpa using hp)]
      simp [dictLookup, hk]
    · simp only [dictLookup, if_neg hk] at h
      by_cases hpw : p w = true
      · rw [List.filter_cons_of_pos (by simpa using hpw)]
        simp only [dictLookup, if_neg hk]
        exact lookup_filter_mem p id rest v h hp
      · rw [List.filter_cons_of_neg (by simpa using hpw)]
        exact lookup_filter_mem p id rest v h hp

/-- Helper: the post-update `LOST_AGENTS` component, written out. -/
theorem track_lost_red (tree : List Node) (now : Int) (st : TemporalState) :
    (track_agent_changes tree now st).1.lost_agents
      = ((((dictKeys st.previous_agents).filter
            (fun i => !((dictKeys (flatten_agents tree)).contains i))).foldl
          (fun la i => match dictLookup i st.previous_agents with
            | some a => dictInsert i (a, now) la
            | none => la) st.lost_agents).filter
        (fun e => !(decide (now - e.2.2 > 300)))) := rfl

/-- Helper: the per-tick new-agent count, written out. -/
theorem track_new_red (tree : List Node) (now : Int) (st : TemporalState) :
    (track_agent_changes tree now st).2.new_count
      = ((dictKeys (flatten_agents tree)).filter
          (fun i => !((dictKeys st.previous_agents).contains i))).length := rfl

/-- Helper: for an identifier absent from the previous-tick mapping, its
lost entry survives the update exactly when it is at most 300 seconds
old — regardless of whether the identifier is in the current tree. -/
theorem track_lost_lookup_iff (tree : List Node) (now : Int) (st : TemporalState)
    (id : String) (a : Agent) (t : Int)
    (hl : dictLookup id st.lost_agents = some (a, t))
    (hprev : id ∉ dictKeys st.previous_agents) :
    (dictLookup id (track_agent_changes tree now st).1.lost_agents = some (a, t) ↔
      now - t ≤ 300) := by
  rw [track_lost_red]
  have hnotlost : id ∉ (dictKeys st.previous_agents).filter
      (fun i => !((dictKeys (flatten_agents tree)).contains i)) :=
    fun hm => hprev (List.mem_of_mem_filter hm)
  have hg : ∀ (i : String) (d : List (String × (Agent × Int))), i ≠ id →
      dictLookup id (match dictLookup i st.previous_agents with
        | some a0 => dictInsert i (a0, now) d
        | none => d) = dictLookup id d := by
    intro i d hne
    cases hlk : dictLookup i st.previous_agents with
    | some a0 => simpa using dictLookup_insert_ne i id (a0, now) d hne
    | none => rfl
  have hfold : dictLookup id (((dictKeys st.previous_agents).filter
        (fun i => !((dictKeys (flatten_agents tree)).contains i))).foldl
      (fun la i => match dictLookup i st.previous_agents with
        | some a0 => dictInsert i (a0, now) la
        | none => la) st.lost_agents) = some (a, t) := by
    rw [lookup_foldl_untouched id
      (fun i d => match dictLookup i st.previous_agents with
        | some a0 => dictInsert i (a0, now) d
        | none => d) hg _ st.lost_agents hnotlost]
    exact hl
  constructor
  · intro hres
    have hp := lookup_filter_prop (fun v : Agent × Int => !(decide (now - v.2 > 300)))
      id _ (a, t) hres
    simp only [Bool.not_eq_true', decide_eq_false_iff_not, not_lt] at hp
    omega
  · intro hle
    refine lookup_filter_mem (fun v : Agent × Int => !(decide (now - v.2 > 300)))
      id _ (a, t) hfold ?_
    simp only [Bool.not_eq_true', decide_eq_false_iff_not, not_lt]
    omega

/-- Claim C1 (amended): a lost entry is removed only by the 300-second
expiry, never by reappearance: an entry at most 300 seconds old whose
identifier is absent from the previous-tick mapping survives the update
unchanged even when the identifier is present in the current tree, and
such a reappearing identifier still contributes to that tick's
`newCount`. (The original disjointness claim is refuted by
`reappeared_agent_still_in_lost`.) -/
theorem lost_entry_persists_on_reappearance (tree : List Node) (now : Int)
    (st : TemporalState) (id : String) (a : Agent) (t : Int)
    (hl : dictLookup id st.lost_agents = some (a, t))
    (hprev : id ∉ dictKeys st.previous_agents)
    (hfresh : now - t ≤ 300) :
    dictLookup id (track_agent_changes tree now st).1.lost_agents = some (a, t) ∧
    (id ∈ dictKeys (flatten_agents tree) →
      1 ≤ (track_agent_changes tree now st).2.new_count) := by
  constructor
  · exact (track_lost_lookup_iff tree now st id a t hl hprev).mpr hfresh
  · intro hidc
    rw [track_new_red]
    have hmem : id ∈ (dictKeys (flatten_agents tree)).filter
        (fun i => !((dictKeys st.previous_agents).contains i)) := by
      refine List.mem_filter.mpr ⟨hidc, ?_⟩
      simpa using hprev
    have hpos := List.length_pos.mpr (List.ne_nil_of_mem hmem)
    omega

/-- Witness for `lost_entry_persists_on_reappearance`: after losing
`agentA` at time 10, the tick at time 20 with `agentA` back keeps the
loss entry and counts one new agent. -/
theorem lost_entry_persists_on_reappearance_witness :
    dictLookup "a" st2.lost_agents = some (agentA, 10) ∧
    "a" ∈ dictKeys (flatten_agents [nodeA]) ∧
    dictLookup "a" (track_agent_changes [nodeA] 20 st2).1.lost_agents = some (agentA, 10) ∧
    1 ≤ (track_agent_changes [nodeA] 20 st2).2.new_count := by
  have key := lost_entry_persists_on_reappearance [nodeA] 20 st2 "a" agentA 10
    (by decide) (by decide) (by decide)
  exact ⟨by decide, by decide, key.1, key.2 (by decide)⟩

/-- Claim C4 (amended): a lost entry (whose identifier is absent from the
previous-tick mapping) is removed by the per-tick update exactly when
`now - lossTimestamp > 300` seconds: it is still present at +299 and at
exactly +300, and absent at +301. (The claimed `>= 300` removal bound is
refuted at exactly +300 by `lost_entry_kept_at_exact_300`.) -/
theorem lost_expiry_strict_boundary (tree : List Node) (now : Int) (st : TemporalState)
    (id : String) (a : Agent) (t : Int)
    (hl : dictLookup id st.lost_agents = some (a, t))
    (hprev : id ∉ dictKeys st.previous_agents) :
    (dictLookup id (track_agent_changes tree now st).1.lost_agents = some (a, t) ↔
      now - t ≤ 300) :=
  track_lost_lookup_iff tree now st id a t hl hprev

/-- Witness for `lost_expiry_strict_boundary`: the entry lost at time 0
is present after updates at 299 and 300 and absent after 301. -/
theorem lost_expiry_strict_boundary_witness :
    dictLookup "x" stL.lost_agents = some (agentA, 0) ∧
    dictLookup "x" (track_agent_changes [] 299 stL).1.lost_agents = some (agentA, 0) ∧
    dictLookup "x" (track_agent_changes [] 300 stL).1.lost_agents = some (agentA, 0) ∧
    dictLookup "x" (track_agent_changes [] 301 stL).1.lost_agents = none := by
  refine ⟨by decide, ?_, ?_, by decide⟩
  · exact (lost_expiry_strict_boundary [] 299 stL "x" agentA 0 (by decide)
      (by decide)).mpr (by decide)
  · exact (lost_expiry_strict_boundary [] 300 stL "x" agentA 0 (by decide)
      (by decide)).mpr (by decide)

end SliverGraph
